import Mathlib

/-!
Verification of the auteur article registry and link-maintenance engine,
a shallow embedding of `src/file_tools.py` (plus `build_article_url`,
duplicated in `src/auteur.py`).

Modelling conventions:
* Python strings are Lean `String`s for registry fields and `List Char`
  for the HTML/URL manipulation functions (`insert_next_link`,
  `insert_previous_link`, `build_article_url`), where character-level
  reasoning is needed.
* Python `datetime` values are modelled by `PubDate`: `ymdhm` is the
  numeric value of the `%Y%m%d%H%M` digit string and `sec` the sub-minute
  remainder; Python's lexicographic datetime comparison becomes a
  lexicographic comparison of the two components, and serializing with
  `strftime('%Y%m%d%H%M')` keeps `ymdhm` and drops `sec`.
* Filesystem `Path` objects are modelled as raw strings; `Path`
  canonicalisation is not modelled.  `Path(None)` raising `TypeError`
  is modelled as `LoadError.typeError`.
* Exceptions are modelled with `Except` / explicit error components.
  The spec's abstract error names map to the code's exceptions:
  `NotRegisteredError` ~ `DatabaseError('Article is not registered…')`,
  `NotFoundError` ~ `ValueError('Article not found…')`,
  `CorruptStateError` ~ `json.JSONDecodeError` (a `ValueError`, which the
  registry constructor does not catch), and the registry's caught
  `IOError` is the missing/unreadable-file case.
-/

/-- Publication timestamp: `ymdhm` is the `%Y%m%d%H%M` digit value,
`sec` everything below minute precision. -/
structure PubDate where
  ymdhm : Nat
  sec : Nat
deriving DecidableEq

/-- Python `datetime.__lt__`, restricted to the two components the
embedding tracks (lexicographic). -/
def PubDate.lt (a b : PubDate) : Prop :=
  a.ymdhm < b.ymdhm ∨ (a.ymdhm = b.ymdhm ∧ a.sec < b.sec)

/-- Python `datetime.__le__` on the tracked components. -/
def PubDate.le (a b : PubDate) : Prop :=
  a.ymdhm < b.ymdhm ∨ (a.ymdhm = b.ymdhm ∧ a.sec ≤ b.sec)

instance (a b : PubDate) : Decidable (PubDate.lt a b) := by
  unfold PubDate.lt
  infer_instance

instance (a b : PubDate) : Decidable (PubDate.le a b) := by
  unfold PubDate.le
  infer_instance

theorem PubDate.le_of_not_lt {a b : PubDate} (h : ¬ PubDate.lt a b) :
    PubDate.le b a := by
  unfold PubDate.lt at h
  unfold PubDate.le
  omega

theorem PubDate.le_of_lt {a b : PubDate} (h : PubDate.lt a b) : PubDate.le a b := by
  unfold PubDate.lt at h
  unfold PubDate.le
  omega

theorem PubDate.lt_of_lt_of_le {a b c : PubDate} (h1 : PubDate.lt a b)
    (h2 : PubDate.le b c) : PubDate.lt a c := by
  unfold PubDate.lt at *
  unfold PubDate.le at h2
  omega

/-- The fields of `Article` (src/file_tools.py:312) that the registry
reads, writes and persists.  `ampBody` is the cached `self.__amp`; the
lazy disk fallback of the `amp` property is not modelled (the embedding
has no filesystem), which only affects the persisted `amp_filename`
field. -/
structure Article where
  source : Option String
  target : Option String
  title : Option String
  pubDate : PubDate
  htmlFilename : Option String
  ampFilename : Option String
  ampBody : Option String
deriving DecidableEq

/-- Errors raised by `_ArticleDatabase` / `Article` traversal. -/
inductive DbError where
  | notRegistered
  | notFound
deriving DecidableEq

/-- Errors escaping `_ArticleDatabase.__init__`. -/
inductive LoadError where
  | corruptState
  | typeError
deriving DecidableEq

/-- Loop body of `Article.previous` (src/file_tools.py:435): scan the
database, returning the accumulated predecessor when the title matches;
falling off the loop returns `None`. -/
def prevAux (t : Option String) : List Article → Option Article → Option Article
  | [], _ => none
  | x :: xs, acc => if x.title = t then acc else prevAux t xs (some x)

/-- Loop body of `Article.next` (src/file_tools.py:451): a `found` flag is
set on title match and the next non-matching article is returned. -/
def nextAux (t : Option String) : List Article → Bool → Option Article
  | [], _ => none
  | x :: xs, found =>
    if x.title = t then nextAux t xs true
    else if found then some x else nextAux t xs found

/-- `Article.previous` property: the back-reference `self.__article_database`
is passed explicitly as `reg`; `none` means the article was never
registered, in which case `DatabaseError` is raised. -/
def Article.previous (reg : Option (List Article)) (a : Article) :
    Except DbError (Option Article) :=
  match reg with
  | none => .error .notRegistered
  | some arts => .ok (prevAux a.title arts none)

/-- `Article.next` property, analogous to `Article.previous`. -/
def Article.next (reg : Option (List Article)) (a : Article) :
    Except DbError (Option Article) :=
  match reg with
  | none => .error .notRegistered
  | some arts => .ok (nextAux a.title arts false)

/-- `_ArticleDatabase.insert` (src/file_tools.py:623): splice before the
first entry whose date strictly exceeds the new article's, else append. -/
def dbInsert : List Article → Article → List Article
  | [], a => [a]
  | x :: xs, a =>
    if PubDate.lt a.pubDate x.pubDate then a :: x :: xs else x :: dbInsert xs a

/-- A registry built by a sequence of `insert` calls from empty. -/
def insertAll (l : List Article) : List Article := l.foldl dbInsert []

/-- `_ArticleDatabase.find_article_index` with `title=True`
(src/file_tools.py:652), as used by `remove`: index of the first entry
whose title equals the argument's, `none` for the raised `ValueError`. -/
def findTitleIdx (t : Option String) : List Article → Option Nat
  | [] => none
  | x :: xs => if x.title = t then some 0 else (findTitleIdx t xs).map (· + 1)

/-- `_ArticleDatabase.remove` (src/file_tools.py:636): the pair is the
raised error (if any) together with the article list after the call —
on failure `pop` is never reached and the list is unchanged. -/
def dbRemove (arts : List Article) (a : Article) : Option DbError × List Article :=
  match findTitleIdx a.title arts with
  | none => (some .notFound, arts)
  | some i => (none, arts.eraseIdx i)

/-- One record of the persisted JSON array.  `pub_date` holds the numeric
value of the 12-digit `%Y%m%d%H%M` string. -/
structure ArticleRecord where
  source : String
  target : String
  pub_date : Nat
  title : String
  html_filename : String
  amp_filename : String
deriving DecidableEq

/-- `_ArticleDatabase.string_or_none` (src/file_tools.py:677). -/
def string_or_none (s : String) : Option String :=
  if s = "__None__" then none else some s

/-- The `x if x else '__None__'` idiom of `Article.article_dict` for
path-valued fields (a `Path` object is always truthy). -/
def optPath : Option String → String
  | some s => s
  | none => "__None__"

/-- `Article.article_dict` (src/file_tools.py:468).  For `title`, Python
truthiness makes the empty string serialize as the sentinel as well.
`amp_filename` is guarded by `self.amp`, modelled as the cached body
being present (see `Article`). -/
def article_dict (a : Article) : ArticleRecord :=
  { source := optPath a.source
    target := optPath a.target
    pub_date := a.pubDate.ymdhm
    title := match a.title with
      | some t => if t = "" then "__None__" else t
      | none => "__None__"
    html_filename := optPath a.htmlFilename
    amp_filename := if a.ampBody.isSome then optPath a.ampFilename else "__None__" }

/-- One iteration of the load loop in `_ArticleDatabase.__init__`
(src/file_tools.py:584-597).  `source` and `target` go through
`Path(string_or_none(...))`, and `Path(None)` raises `TypeError`
(not caught).  `title` is read back verbatim, with no sentinel
mapping.  `pub_date` is parsed by `strptime('%Y%m%d%H%M')`, which
leaves the sub-minute part zero. -/
def parseRecord (r : ArticleRecord) : Except LoadError Article :=
  match string_or_none r.source with
  | none => .error .typeError
  | some s =>
    match string_or_none r.target with
    | none => .error .typeError
    | some t =>
      .ok { source := some s
            target := some t
            title := some r.title
            pubDate := { ymdhm := r.pub_date, sec := 0 }
            htmlFilename := string_or_none r.html_filename
            ampFilename := string_or_none r.amp_filename
            ampBody := none }

/-- `_ArticleDatabase.commit` (src/file_tools.py:609): the JSON array
written to storage. -/
def dbCommit (arts : List Article) : List ArticleRecord := arts.map article_dict

/-- The full load loop: the first record that fails aborts the
constructor with the propagating exception. -/
def parseRecords : List ArticleRecord → Except LoadError (List Article)
  | [] => .ok []
  | r :: rs =>
    match parseRecord r with
    | .error e => .error e
    | .ok a =>
      match parseRecords rs with
      | .error e => .error e
      | .ok rest => .ok (a :: rest)

/-- Outcome of `read_json_file(DATABASE_PATH)` (src/file_tools.py:101):
the file is missing/unreadable (`IOError`), its contents are not valid
JSON (`json.JSONDecodeError`), or a list of records is returned. -/
inductive ReadResult where
  | ioError
  | badJson
  | ok (records : List ArticleRecord)

/-- `_ArticleDatabase.__init__` with no pre-existing in-memory list
(src/file_tools.py:580): `IOError` is caught and yields an empty
registry; a JSON decode error is a `ValueError` and propagates
(`CorruptStateError` in the spec's taxonomy); a `TypeError` from
`Path(None)` propagates as well. -/
def dbLoad : ReadResult → Except LoadError (List Article)
  | .ioError => .ok []
  | .badJson => .error .corruptState
  | .ok rs => parseRecords rs

/-- The registry order relation: non-decreasing by publication date. -/
def sortedByDate (arts : List Article) : Prop :=
  List.Pairwise (fun x y => PubDate.le x.pubDate y.pubDate) arts

instance (arts : List Article) : Decidable (sortedByDate arts) := by
  unfold sortedByDate
  exact List.instDecidablePairwise arts

/-! ### Lemmas about `insert` (claim C1) -/

theorem mem_dbInsert {arts : List Article} {a y : Article}
    (h : y ∈ dbInsert arts a) : y = a ∨ y ∈ arts := by
  induction arts with
  | nil =>
    simp [dbInsert] at h
    exact Or.inl h
  | cons x xs ih =>
    simp only [dbInsert] at h
    by_cases hlt : PubDate.lt a.pubDate x.pubDate
    · rw [if_pos hlt] at h
      simp only [List.mem_cons] at h ⊢
      tauto
    · rw [if_neg hlt] at h
      simp only [List.mem_cons] at h ⊢
      rcases h with h | h
      · tauto
      · rcases ih h with h | h <;> tauto

theorem dbInsert_sorted {arts : List Article} {a : Article}
    (h : sortedByDate arts) : sortedByDate (dbInsert arts a) := by
  induction arts with
  | nil => simp [dbInsert, sortedByDate]
  | cons x xs ih =>
    simp only [dbInsert]
    rcases List.pairwise_cons.mp h with ⟨hx, hxs⟩
    by_cases hlt : PubDate.lt a.pubDate x.pubDate
    · rw [if_pos hlt]
      refine List.pairwise_cons.mpr ⟨?_, h⟩
      intro y hy
      rcases List.mem_cons.mp hy with rfl | hy
      · exact PubDate.le_of_lt hlt
      · exact PubDate.le_of_lt (PubDate.lt_of_lt_of_le hlt (hx y hy))
    · rw [if_neg hlt]
      refine List.pairwise_cons.mpr ⟨?_, ih hxs⟩
      intro y hy
      rcases mem_dbInsert hy with rfl | hy
      · exact PubDate.le_of_not_lt hlt
      · exact hx y hy

theorem insertAll_sorted (l : List Article) : sortedByDate (insertAll l) := by
  have main : ∀ (l : List Article) (init : List Article), sortedByDate init →
      sortedByDate (l.foldl dbInsert init) := by
    intro l
    induction l with
    | nil => intro init h; simpa using h
    | cons x xs ih =>
      intro init h
      simpa using ih (dbInsert init x) (dbInsert_sorted h)
  exact main l [] (by simp [sortedByDate])

theorem dbInsert_placement {arts : List Article} (a : Article)
    (h : sortedByDate arts) :
    ∃ xs ys, dbInsert arts a = xs ++ a :: ys ∧ arts = xs ++ ys ∧
      (∀ x ∈ xs, PubDate.le x.pubDate a.pubDate) ∧
      (∀ y ∈ ys, PubDate.lt a.pubDate y.pubDate) := by
  induction arts with
  | nil => exact ⟨[], [], by simp [dbInsert], by simp, by simp, by simp⟩
  | cons x xs ih =>
    rcases List.pairwise_cons.mp h with ⟨hx, hxs⟩
    by_cases hlt : PubDate.lt a.pubDate x.pubDate
    · refine ⟨[], x :: xs, by simp [dbInsert, hlt], by simp, by simp, ?_⟩
      intro y hy
      rcases List.mem_cons.mp hy with rfl | hy
      · exact hlt
      · exact PubDate.lt_of_lt_of_le hlt (hx y hy)
    · rcases ih hxs with ⟨xs', ys', heq, hsplit, hle, hgt⟩
      refine ⟨x :: xs', ys', ?_, by simp [hsplit], ?_, hgt⟩
      · simp [dbInsert, hlt, heq]
      · intro z hz
        rcases List.mem_cons.mp hz with rfl | hz
        · exact PubDate.le_of_not_lt hlt
        · exact hle z hz

/-- C1: for every sequence of `insert` calls starting from an empty
registry the resulting article sequence is sorted non-decreasing by
publication date (every such registry is a fold of `dbInsert` over the
insertion sequence, so this covers the state after each call), and an
inserted article lands after every existing entry whose date is less
than or equal to its own — in particular after all entries with exactly
its date — and before every strictly later entry (the scan uses strict
less-than). -/
theorem c1_insert_sorted_stable :
    (∀ l : List Article, sortedByDate (insertAll l)) ∧
    (∀ (arts : List Article) (a : Article), sortedByDate arts →
      ∃ xs ys, dbInsert arts a = xs ++ a :: ys ∧ arts = xs ++ ys ∧
        (∀ x ∈ xs, PubDate.le x.pubDate a.pubDate) ∧
        (∀ y ∈ ys, PubDate.lt a.pubDate y.pubDate)) :=
  ⟨insertAll_sorted, fun _ a h => dbInsert_placement a h⟩

/-! ### Lemmas about traversal (claims C2, C10) -/

/-- The accumulator after scanning `xs` without a title match. -/
def lastOr (xs : List Article) (acc : Option Article) : Option Article :=
  match xs with
  | [] => acc
  | x :: rest => lastOr rest (some x)

theorem lastOr_eq (xs : List Article) (acc : Option Article) :
    lastOr xs acc = match xs.getLast? with | some l => some l | none => acc := by
  induction xs generalizing acc with
  | nil => simp [lastOr]
  | cons x rest ih =>
    cases rest with
    | nil => simp [lastOr]
    | cons y ys =>
      rw [List.getLast?_cons_cons]
      simpa [lastOr] using ih (some x)

theorem prevAux_append {t : Option String} (xs rest : List Article)
    (acc : Option Article) (h : ∀ b ∈ xs, b.title ≠ t) :
    prevAux t (xs ++ rest) acc = prevAux t rest (lastOr xs acc) := by
  induction xs generalizing acc with
  | nil => simp [lastOr]
  | cons x xs' ih =>
    have hx : x.title ≠ t := h x (by simp)
    simp only [List.cons_append, prevAux, if_neg hx, lastOr]
    exact ih (some x) (fun b hb => h b (by simp [hb]))

theorem prevAux_no_match {t : Option String} (l : List Article)
    (acc : Option Article) (h : ∀ b ∈ l, b.title ≠ t) : prevAux t l acc = none := by
  induction l generalizing acc with
  | nil => rfl
  | cons x xs ih =>
    have hx : x.title ≠ t := h x (by simp)
    simp only [prevAux, if_neg hx]
    exact ih (some x) (fun b hb => h b (by simp [hb]))

theorem nextAux_append_false {t : Option String} (xs rest : List Article)
    (h : ∀ b ∈ xs, b.title ≠ t) :
    nextAux t (xs ++ rest) false = nextAux t rest false := by
  induction xs with
  | nil => simp
  | cons x xs' ih =>
    have hx : x.title ≠ t := h x (by simp)
    simp only [List.cons_append, nextAux, if_neg hx]
    exact ih (fun b hb => h b (by simp [hb]))

theorem nextAux_true_head {t : Option String} (ys : List Article)
    (h : ∀ b ∈ ys, b.title ≠ t) : nextAux t ys true = ys.head? := by
  cases ys with
  | nil => rfl
  | cons y ys' =>
    have hy : y.title ≠ t := h y (by simp)
    simp [nextAux, if_neg hy]

theorem nextAux_no_match {t : Option String} (l : List Article)
    (h : ∀ b ∈ l, b.title ≠ t) : nextAux t l false = none := by
  induction l with
  | nil => rfl
  | cons x xs ih =>
    have hx : x.title ≠ t := h x (by simp)
    simp only [nextAux, if_neg hx, if_neg Bool.false_ne_true]
    exact ih (fun b hb => h b (by simp [hb]))

/-- C2: in a registry whose entries have pairwise-distinct titles,
`previous`/`next` locate the article by title equality (the registry
entry `b` only needs to share `a`'s title, nothing else) and return the
entry just before / just after it, `none` at either boundary
(`xs.getLast? = none` when `xs = []`, `ys.head? = none` when `ys = []`);
on an article that was never registered both raise
`DatabaseError` (`NotRegisteredError`). -/
theorem c2_traversal (xs ys : List Article) (a b : Article)
    (htitle : b.title = a.title)
    (hnd : ((xs ++ b :: ys).map (fun x => x.title)).Nodup) :
    Article.previous (some (xs ++ b :: ys)) a = .ok xs.getLast? ∧
    Article.next (some (xs ++ b :: ys)) a = .ok ys.head? ∧
    Article.previous none a = .error .notRegistered ∧
    Article.next none a = .error .notRegistered := by
  have hmap : (xs ++ b :: ys).map (fun x => x.title)
      = xs.map (fun x => x.title) ++ b.title :: ys.map (fun x => x.title) := by
    simp
  rw [hmap] at hnd
  rcases List.nodup_append.mp hnd with ⟨_, hnd2, hdisj⟩
  have hbxs : b.title ∉ xs.map (fun x => x.title) := by
    intro hmem
    exact hdisj hmem (by simp)
  have hxs : ∀ c ∈ xs, c.title ≠ a.title := by
    intro c hc hceq
    exact hbxs (by
      rw [htitle, ← hceq]
      exact List.mem_map.mpr ⟨c, hc, rfl⟩)
  have hys : ∀ c ∈ ys, c.title ≠ a.title := by
    rcases List.nodup_cons.mp hnd2 with ⟨hbys, _⟩
    intro c hc hceq
    exact hbys (by
      rw [htitle, ← hceq]
      exact List.mem_map.mpr ⟨c, hc, rfl⟩)
  refine ⟨?_, ?_, rfl, rfl⟩
  · show Except.ok (prevAux a.title (xs ++ b :: ys) none) = _
    rw [prevAux_append xs (b :: ys) none hxs]
    simp only [prevAux, if_pos htitle]
    rw [lastOr_eq]
    cases hlast : xs.getLast? <;> rfl
  · show Except.ok (nextAux a.title (xs ++ b :: ys) false) = _
    rw [nextAux_append_false xs (b :: ys) hxs]
    simp only [nextAux, if_pos htitle]
    rw [nextAux_true_head ys hys]

/-- C10: on an article registered with the registry whose title matches
no entry, `previous` and `next` both fall off their scan loop and return
`None` — indistinguishable from the boundary answer — rather than
raising. -/
theorem c10_unmatched_title_none (arts : List Article) (a : Article)
    (h : ∀ b ∈ arts, b.title ≠ a.title) :
    Article.previous (some arts) a = .ok none ∧
    Article.next (some arts) a = .ok none := by
  constructor
  · show Except.ok (prevAux a.title arts none) = _
    rw [prevAux_no_match arts none h]
  · show Except.ok (nextAux a.title arts false) = _
    rw [nextAux_no_match arts h]

/-! ### Lemmas about `remove` (claim C4) and loading (claims C3, C5) -/

theorem findTitleIdx_none {t : Option String} (l : List Article)
    (h : ∀ b ∈ l, b.title ≠ t) : findTitleIdx t l = none := by
  induction l with
  | nil => rfl
  | cons x xs ih =>
    have hx : x.title ≠ t := h x (by simp)
    simp only [findTitleIdx, if_neg hx]
    rw [ih (fun b hb => h b (by simp [hb]))]
    rfl

theorem findTitleIdx_first {t : Option String} (xs ys : List Article)
    (b : Article) (hb : b.title = t) (h : ∀ c ∈ xs, c.title ≠ t) :
    findTitleIdx t (xs ++ b :: ys) = some xs.length := by
  induction xs with
  | nil => simp [findTitleIdx, hb]
  | cons x xs' ih =>
    have hx : x.title ≠ t := h x (by simp)
    simp only [List.cons_append, findTitleIdx, if_neg hx, List.append_eq]
    rw [ih (fun c hc => h c (by simp [hc]))]
    simp

theorem eraseIdx_middle (xs ys : List Article) (b : Article) :
    (xs ++ b :: ys).eraseIdx xs.length = xs ++ ys := by
  induction xs with
  | nil => simp [List.eraseIdx]
  | cons x xs' ih => simp [List.eraseIdx, ih]

/-- C4: removal looks up the first entry whose title equals the
argument's; with no match the raised `ValueError` (`NotFoundError`)
leaves the article sequence exactly as it was, and with a match the
first matching entry is deleted and every other entry keeps its relative
position. -/
theorem c4_remove (arts : List Article) (a : Article) :
    ((∀ b ∈ arts, b.title ≠ a.title) →
      dbRemove arts a = (some .notFound, arts)) ∧
    (∀ xs b ys, arts = xs ++ b :: ys → b.title = a.title →
      (∀ c ∈ xs, c.title ≠ a.title) →
      dbRemove arts a = (none, xs ++ ys)) := by
  constructor
  · intro h
    unfold dbRemove
    rw [findTitleIdx_none arts h]
  · intro xs b ys hsplit hb hxs
    subst hsplit
    unfold dbRemove
    rw [findTitleIdx_first xs ys b hb hxs]
    simp [eraseIdx_middle xs ys b]

/-- C5: a missing or unreadable registry file (`IOError` from
`read_json_file`) is caught by `_ArticleDatabase.__init__` and yields an
empty registry, while contents that fail JSON parsing raise
`json.JSONDecodeError` (`CorruptStateError`), which the constructor does
not catch. -/
theorem c5_load_missing_vs_malformed :
    dbLoad ReadResult.ioError = .ok [] ∧
    dbLoad ReadResult.badJson = .error .corruptState :=
  ⟨rfl, rfl⟩

/-- An article with no title, used to refute the round-trip claim. -/
def exNoTitle : Article :=
  { source := some "posts/a/a.md"
    target := some "posts/a"
    title := none
    pubDate := { ymdhm := 202401011200, sec := 0 }
    htmlFilename := some "index.html"
    ampFilename := none
    ampBody := none }

/-- C3 counterexample: committing a registry holding one article whose
`title` is `None` and reloading it does not give back an equal article —
the sentinel `"__None__"` written for the title is read back verbatim
(the load loop applies `string_or_none` to every optional field except
`title`), so the reloaded title is the literal string `"__None__"`. -/
theorem c3_roundtrip_counterexample :
    dbLoad (ReadResult.ok (dbCommit [exNoTitle]))
      = .ok [{ exNoTitle with title := some "__None__" }] ∧
    dbLoad (ReadResult.ok (dbCommit [exNoTitle])) ≠ .ok [exNoTitle] := by
  constructor
  · rfl
  · intro h
    simp only [dbLoad, dbCommit, parseRecords, parseRecord, exNoTitle] at h
    simp [string_or_none, article_dict, optPath] at h

/-- C3 amended: the round-trip does hold for registries whose articles
all have a present (non-`None`) source, target and title, with source
and target not the sentinel string and the title non-empty: reloading
the committed records succeeds and preserves `source`, `target`, `title`
and the publication date to minute precision (`ymdhm`; the sub-minute
part is zeroed by `strptime('%Y%m%d%H%M')`). -/
theorem c3_roundtrip_amended (arts : List Article)
    (h : ∀ a ∈ arts,
      a.source ≠ none ∧ a.source ≠ some "__None__" ∧
      a.target ≠ none ∧ a.target ≠ some "__None__" ∧
      a.title ≠ none ∧ a.title ≠ some "") :
    ∃ arts', dbLoad (ReadResult.ok (dbCommit arts)) = .ok arts' ∧
      List.Forall₂ (fun a a' =>
        a.source = a'.source ∧ a.target = a'.target ∧ a.title = a'.title ∧
        a.pubDate.ymdhm = a'.pubDate.ymdhm) arts arts' := by
  induction arts with
  | nil => exact ⟨[], rfl, List.Forall₂.nil⟩
  | cons a rest ih =>
    rcases h a (by simp) with ⟨hs0, hs1, ht0, ht1, hti0, hti1⟩
    rcases ih (fun x hx => h x (by simp [hx])) with ⟨rest', hload, hfa⟩
    obtain ⟨s, hs⟩ : ∃ s, a.source = some s := by
      cases hsrc : a.source with
      | none => exact absurd hsrc hs0
      | some s => exact ⟨s, rfl⟩
    obtain ⟨t, ht⟩ : ∃ t, a.target = some t := by
      cases htgt : a.target with
      | none => exact absurd htgt ht0
      | some t => exact ⟨t, rfl⟩
    obtain ⟨ti, hti⟩ : ∃ ti, a.title = some ti := by
      cases htit : a.title with
      | none => exact absurd htit hti0
      | some ti => exact ⟨ti, rfl⟩
    have hsne : s ≠ "__None__" := by
      intro hcon
      exact hs1 (by rw [hs, hcon])
    have htne : t ≠ "__None__" := by
      intro hcon
      exact ht1 (by rw [ht, hcon])
    have htine : ti ≠ "" := by
      intro hcon
      exact hti1 (by rw [hti, hcon])
    refine ⟨{ source := some s, target := some t, title := some ti
              pubDate := { ymdhm := a.pubDate.ymdhm, sec := 0 }
              htmlFilename := string_or_none (optPath a.htmlFilename)
              ampFilename := string_or_none (article_dict a).amp_filename
              ampBody := none } :: rest', ?_, ?_⟩
    · simp only [dbLoad, dbCommit, List.map_cons, parseRecords]
      have hparse : parseRecord (article_dict a)
          = .ok { source := some s, target := some t, title := some ti
                  pubDate := { ymdhm := a.pubDate.ymdhm, sec := 0 }
                  htmlFilename := string_or_none (optPath a.htmlFilename)
                  ampFilename := string_or_none (article_dict a).amp_filename
                  ampBody := none } := by
        unfold parseRecord
        have hdsrc : (article_dict a).source = s := by
          simp [article_dict, hs, optPath]
        have hdtgt : (article_dict a).target = t := by
          simp [article_dict, ht, optPath]
        have hdtit : (article_dict a).title = ti := by
          simp [article_dict, hti, if_neg htine]
        have hdpd : (article_dict a).pub_date = a.pubDate.ymdhm := by
          simp [article_dict]
        have hdhf : (article_dict a).html_filename = optPath a.htmlFilename := by
          simp [article_dict]
        rw [hdsrc, hdtgt, hdtit, hdpd, hdhf]
        rw [string_or_none, if_neg hsne, string_or_none, if_neg htne]
      rw [hparse]
      simp only [dbLoad, dbCommit] at hload
      rw [hload]
    · exact List.Forall₂.cons (by simp [hs, ht, hti]) hfa

/-! ### Concrete articles for witnesses -/

def artA : Article :=
  { source := some "a/a.md", target := some "a", title := some "A"
    pubDate := { ymdhm := 202401010000, sec := 0 }
    htmlFilename := some "index.html", ampFilename := none, ampBody := none }

def artB : Article :=
  { source := some "b/b.md", target := some "b", title := some "B"
    pubDate := { ymdhm := 202402010000, sec := 0 }
    htmlFilename := some "index.html", ampFilename := none, ampBody := none }

def artC : Article :=
  { source := some "c/c.md", target := some "c", title := some "C"
    pubDate := { ymdhm := 202403010000, sec := 0 }
    htmlFilename := some "index.html", ampFilename := none, ampBody := none }

/-- Witness for C1 at a concrete two-article insertion sequence. -/
theorem c1_witness :
    sortedByDate (insertAll [artB, artA]) ∧
    (sortedByDate [artA] ∧
      ∃ xs ys, dbInsert [artA] artB = xs ++ artB :: ys ∧ [artA] = xs ++ ys ∧
        (∀ x ∈ xs, PubDate.le x.pubDate artB.pubDate) ∧
        (∀ y ∈ ys, PubDate.lt artB.pubDate y.pubDate)) :=
  ⟨c1_insert_sorted_stable.1 [artB, artA],
   by decide, c1_insert_sorted_stable.2 [artA] artB (by decide)⟩

/-- Witness for C2 on the three-article registry `A, B, C`. -/
theorem c2_witness :
    (artB.title = artB.title ∧
      (([artA] ++ artB :: [artC]).map (fun x => x.title)).Nodup) ∧
    (Article.previous (some ([artA] ++ artB :: [artC])) artB = .ok (some artA) ∧
     Article.next (some ([artA] ++ artB :: [artC])) artB = .ok (some artC) ∧
     Article.previous none artB = .error .notRegistered ∧
     Article.next none artB = .error .notRegistered) :=
  ⟨⟨rfl, by decide⟩, by
    simpa using c2_traversal [artA] [artC] artB artB rfl (by decide)⟩

/-- Witness for C3 (amended) on a one-article registry with all
optional fields present. -/
theorem c3_witness :
    (∀ a ∈ [artA],
      a.source ≠ none ∧ a.source ≠ some "__None__" ∧
      a.target ≠ none ∧ a.target ≠ some "__None__" ∧
      a.title ≠ none ∧ a.title ≠ some "") ∧
    (∃ arts', dbLoad (ReadResult.ok (dbCommit [artA])) = .ok arts' ∧
      List.Forall₂ (fun a a' =>
        a.source = a'.source ∧ a.target = a'.target ∧ a.title = a'.title ∧
        a.pubDate.ymdhm = a'.pubDate.ymdhm) [artA] arts') :=
  ⟨by decide, c3_roundtrip_amended [artA] (by decide)⟩

/-- Witness for C4: removing `B` from `[A]` fails; removing `B` from
`[A, B, C]` deletes it and keeps `A, C` in order. -/
theorem c4_witness :
    ((∀ b ∈ [artA], b.title ≠ artB.title) ∧
      dbRemove [artA] artB = (some .notFound, [artA])) ∧
    (artB.title = artB.title ∧
      dbRemove [artA, artB, artC] artB = (none, [artA, artC])) :=
  ⟨⟨by decide, (c4_remove [artA] artB).1 (by decide)⟩,
   ⟨rfl, (c4_remove [artA, artB, artC] artB).2 [artA] artB [artC] rfl rfl
      (by decide)⟩⟩

/-- Witness for C10: `B` registered with the registry `[A]` matches no
title, and both traversals answer `None`. -/
theorem c10_witness :
    (∀ b ∈ [artA], b.title ≠ artB.title) ∧
    Article.previous (some [artA]) artB = .ok none ∧
    Article.next (some [artA]) artB = .ok none :=
  ⟨by decide, (c10_unmatched_title_none [artA] artB (by decide)).1,
   (c10_unmatched_title_none [artA] artB (by decide)).2⟩

/-! ### Character-list machinery for the HTML and URL functions

Python strings are modelled as `List Char` here.  `str.replace` is
`replaceAll` (fuel-based so that it reduces inside the kernel; the fuel
argument is always the list length, which suffices because each step
consumes at least one character).  The two fixed regular expressions
`_PREVIOUS_PATTERN` and `_NEXT_PATTERN` both have the shape
`A .*? B` for string constants `A`, `B`, with `.` matching anything but
a newline and `*?` non-greedy; `re.search` returns the leftmost match
with the shortest star part, which `searchPat` implements directly. -/

theorem isPrefixOf_eq_true_iff {l₁ l₂ : List Char} :
    l₁.isPrefixOf l₂ = true ↔ l₁ <+: l₂ := by
  simp

/-- Worker for `replaceAll`; `fuel` bounds the recursion depth. -/
def replaceAllGo (pat repl : List Char) : Nat → List Char → List Char
  | _, [] => []
  | 0, s => s
  | fuel + 1, c :: rest =>
    if pat ≠ [] ∧ pat.isPrefixOf (c :: rest) then
      repl ++ replaceAllGo pat repl fuel ((c :: rest).drop pat.length)
    else
      c :: replaceAllGo pat repl fuel rest

/-- Python `str.replace(pat, repl)`: every non-overlapping occurrence is
replaced, scanning left to right.  (Python's special treatment of an
empty pattern never arises; all call sites pass fixed non-empty
strings.) -/
def replaceAll (pat repl s : List Char) : List Char :=
  replaceAllGo pat repl s.length s

/-- `pat` occurs in `s` at position `i`. -/
def occursAt (pat s : List Char) (i : Nat) : Prop := pat <+: s.drop i

instance (pat s : List Char) (i : Nat) : Decidable (occursAt pat s i) := by
  unfold occursAt
  infer_instance

/-- Number of positions of `s` at which `pat` occurs (occurrences may
overlap; the patterns used here cannot overlap themselves). -/
def countSub (pat : List Char) : List Char → Nat
  | [] => 0
  | c :: rest => (if pat.isPrefixOf (c :: rest) then 1 else 0) + countSub pat rest

/-- The `.*?` part of the fixed patterns: scan forward for the closing
constant `B`, refusing newlines, and return the (shortest) consumed
middle. -/
def starScan (B : List Char) : List Char → Option (List Char)
  | [] => if B = [] then some [] else none
  | c :: rest =>
    if B.isPrefixOf (c :: rest) then some []
    else if c = '\n' then none
    else (starScan B rest).map (fun mid => c :: mid)

/-- Match `A .*? B` at the start of `s`, returning the matched text. -/
def matchPat (A B : List Char) (s : List Char) : Option (List Char) :=
  if A.isPrefixOf s then
    (starScan B (s.drop A.length)).map (fun mid => A ++ mid ++ B)
  else none

/-- `re.search` for `A .*? B`: leftmost match, shortest star part. -/
def searchPat (A B : List Char) : List Char → Option (List Char)
  | [] => matchPat A B []
  | c :: rest =>
    match matchPat A B (c :: rest) with
    | some m => some m
    | none => searchPat A B rest

/-- `_NEXT_TAG_KEY = 'Home</a>'`. -/
def nextTagKey : List Char := ['H', 'o', 'm', 'e', '<', '/', 'a', '>']

/-- The text between the key and the URL in `_NEXT_TAG_TEMPLATE`:
`' <a href="'`. -/
def nextAnchorOpen : List Char :=
  [' ', '<', 'a', ' ', 'h', 'r', 'e', 'f', '=', '"']

/-- The closing text `'">Next</a>'`, also the constant tail of
`_NEXT_PATTERN`. -/
def nextAnchorClose : List Char :=
  ['"', '>', 'N', 'e', 'x', 't', '<', '/', 'a', '>']

/-- The constant head `'<a href="'` of `_PREVIOUS_PATTERN`. -/
def prevAnchorOpen : List Char :=
  ['<', 'a', ' ', 'h', 'r', 'e', 'f', '=', '"']

/-- The constant tail `'">Previous</a>'` of `_PREVIOUS_PATTERN`. -/
def prevAnchorClose : List Char :=
  ['"', '>', 'P', 'r', 'e', 'v', 'i', 'o', 'u', 's', '<', '/', 'a', '>']

/-- The formatted replacement `'Home</a> <a href="../{target}">Next</a>'`
(`Path('../') / target` renders as `../target`). -/
def nextLinkOf (targetPath : List Char) : List Char :=
  nextTagKey ++ nextAnchorOpen ++ ('.' :: '.' :: '/' :: targetPath)
    ++ nextAnchorClose

/-- `insert_next_link` (src/file_tools.py:59), on the HTML text: replace
an existing `_NEXT_PATTERN` match, else replace the key `'Home</a>'`
(every occurrence — Python `str.replace` replaces all). -/
def insert_next_link (html : List Char) (targetPath : List Char) : List Char :=
  match searchPat (nextTagKey ++ nextAnchorOpen) nextAnchorClose html with
  | some m => replaceAll m (nextLinkOf targetPath) html
  | none => replaceAll nextTagKey (nextLinkOf targetPath) html

/-- The formatted replacement `'<a href="../{target}">Previous</a>'`. -/
def prevLinkOf (targetPath : List Char) : List Char :=
  prevAnchorOpen ++ ('.' :: '.' :: '/' :: targetPath) ++ prevAnchorClose

/-- `insert_previous_link` (src/file_tools.py:84), on the HTML text: only
an existing `_PREVIOUS_PATTERN` match is replaced; with no match the
text is left untouched (the assignment back to the article is inside
the `if match:` block). -/
def insert_previous_link (html : List Char) (targetPath : List Char) : List Char :=
  match searchPat prevAnchorOpen prevAnchorClose html with
  | some m => replaceAll m (prevLinkOf targetPath) html
  | none => html

/-- `build_article_url` (src/file_tools.py:281 and src/auteur.py:167):
backslashes become forward slashes, one trailing slash is stripped from
the root, one leading slash from the path, and the parts are joined
with a single slash.  `none` models the `IndexError` that `root_url[-1]`
/ `article_path_string[0]` raise on an empty string. -/
def build_article_url (rootUrl articlePath : List Char) : Option (List Char) :=
  let p := replaceAll ['\\'] ['/'] articlePath
  match rootUrl.getLast? with
  | none => none
  | some lastc =>
    let root := if lastc = '/' then rootUrl.dropLast else rootUrl
    match p with
    | [] => none
    | c :: cs =>
      let stripped := if c = '/' then cs else c :: cs
      some (root ++ '/' :: stripped)

/-- The post-load normalization of `root_url` and `style_sheet` in
`get_configuration` (src/file_tools.py:253-260): append `'/'` to the
root unless its last character already is one; strip one leading `'/'`
from the style-sheet fragment; prepend the normalized root.  `none`
models the `IndexError` on an empty `root_url` or `style_sheet`. -/
def configNormalize (root_url style_sheet : List Char) :
    Option (List Char × List Char) :=
  match root_url.getLast? with
  | none => none
  | some lastc =>
    let root := if lastc ≠ '/' then root_url ++ ['/'] else root_url
    match style_sheet with
    | [] => none
    | c :: cs =>
      let frag := if c = '/' then cs else c :: cs
      some (root, root ++ frag)

/-! ### Occurrence lemmas -/

theorem drop_append_le {x y : List Char} {i : Nat} (h : i ≤ x.length) :
    (x ++ y).drop i = x.drop i ++ y := by
  induction x generalizing i with
  | nil =>
    simp at h
    subst h
    simp
  | cons c rest ih =>
    cases i with
    | zero => simp
    | succ j =>
      simp only [List.cons_append, List.drop_succ_cons]
      exact ih (by simpa using h)

theorem drop_append_ge {x y : List Char} {i : Nat} (h : x.length ≤ i) :
    (x ++ y).drop i = y.drop (i - x.length) := by
  induction x generalizing i with
  | nil => simp
  | cons c rest ih =>
    cases i with
    | zero => simp at h
    | succ j =>
      simp only [List.cons_append, List.drop_succ_cons]
      rw [ih (by simpa using h)]
      simp [Nat.succ_sub_succ]

theorem occursAt_zero {pat s : List Char} : occursAt pat s 0 ↔ pat <+: s := by
  simp [occursAt]

theorem occursAt_cons_succ {pat : List Char} {c : Char} {rest : List Char}
    {i : Nat} : occursAt pat (c :: rest) (i + 1) ↔ occursAt pat rest i := by
  simp [occursAt]

theorem occursAt_nil_false {pat : List Char} {i : Nat} (hp : pat ≠ [])
    (h : occursAt pat [] i) : False := by
  unfold occursAt at h
  rw [List.drop_nil] at h
  exact hp (List.prefix_nil.mp h)

theorem occursAt_length {pat s : List Char} {i : Nat} (hp : pat ≠ [])
    (h : occursAt pat s i) : i + pat.length ≤ s.length := by
  unfold occursAt at h
  have hle := h.length_le
  rw [List.length_drop] at hle
  by_cases hi : i ≤ s.length
  · omega
  · exfalso
    have : s.drop i = [] := List.drop_eq_nil_of_le (by omega)
    rw [this] at h
    exact hp (List.prefix_nil.mp h)

theorem occursAt_append_right {pat x y : List Char} {i : Nat}
    (h : occursAt pat y i) : occursAt pat (x ++ y) (x.length + i) := by
  unfold occursAt at *
  rw [drop_append_ge (by omega)]
  simpa using h

theorem occursAt_append_self (a pat b : List Char) :
    occursAt pat (a ++ pat ++ b) a.length := by
  unfold occursAt
  rw [List.append_assoc, drop_append_ge (by omega), Nat.sub_self]
  exact List.prefix_append pat b

theorem occursAt_congr_take {pat s t : List Char} {i : Nat}
    (hagree : s.take (i + pat.length) = t.take (i + pat.length)) :
    occursAt pat s i ↔ occursAt pat t i := by
  unfold occursAt
  rw [List.prefix_iff_eq_take, List.prefix_iff_eq_take]
  rw [List.take_drop, List.take_drop, hagree]

theorem occursAt_append_elim {pat x y : List Char} {i : Nat} (hp : pat ≠ [])
    (h : occursAt pat (x ++ y) i) :
    (i + pat.length ≤ x.length ∧ occursAt pat x i) ∨
    (x.length ≤ i ∧ occursAt pat y (i - x.length)) ∨
    (i < x.length ∧ x.length < i + pat.length ∧
      pat.take (x.length - i) = x.drop i ∧ pat.drop (x.length - i) <+: y) := by
  by_cases hcase1 : i + pat.length ≤ x.length
  · left
    refine ⟨hcase1, ?_⟩
    unfold occursAt at *
    rw [drop_append_le (by omega)] at h
    rw [List.prefix_iff_eq_take] at h ⊢
    have hlen : pat.length ≤ (x.drop i).length := by
      rw [List.length_drop]
      omega
    conv_lhs => rw [h]
    rw [List.take_append_eq_append_take, Nat.sub_eq_zero_of_le hlen]
    simp
  · by_cases hcase2 : x.length ≤ i
    · right; left
      refine ⟨hcase2, ?_⟩
      unfold occursAt at *
      rwa [drop_append_ge hcase2] at h
    · right; right
      have hi : i < x.length := by omega
      have hstr : x.length < i + pat.length := by omega
      unfold occursAt at h
      rw [drop_append_le (by omega)] at h
      rcases h with ⟨tail, htail⟩
      have hdl : (x.drop i).length = x.length - i := List.length_drop i x
      refine ⟨hi, hstr, ?_, ?_⟩
      · have hcong := congrArg (List.take (x.length - i)) htail
        rw [List.take_append_eq_append_take, List.take_append_eq_append_take] at hcong
        have h1 : x.length - i - pat.length = 0 := by omega
        have h2 : x.length - i - (x.drop i).length = 0 := by omega
        rw [h1, h2] at hcong
        simp only [List.take_zero, List.append_nil] at hcong
        have h3 : List.take (x.length - i) (List.drop i x) = List.drop i x :=
          List.take_of_length_le (by omega)
        rw [h3] at hcong
        exact hcong
      · have hsplit : pat.take (x.length - i) ++ (pat.drop (x.length - i) ++ tail)
            = x.drop i ++ y := by
          rw [← List.append_assoc, List.take_append_drop]
          exact htail
        have hlen : (pat.take (x.length - i)).length = (x.drop i).length := by
          rw [List.length_take, List.length_drop]
          omega
        have := List.append_inj_right hsplit hlen
        exact ⟨tail, this⟩

theorem head_eq_of_occursAt {c : Char} {p s : List Char} {i : Nat}
    (h : occursAt (c :: p) s i) : ∃ rest, s.drop i = c :: rest := by
  unfold occursAt at h
  rcases h with ⟨tail, htail⟩
  exact ⟨p ++ tail, by rw [← htail]; simp⟩

theorem mem_of_occursAt {pat s : List Char} {i : Nat} {c : Char}
    (h : occursAt pat s i) (hc : c ∈ pat) : c ∈ s := by
  unfold occursAt at h
  rcases h with ⟨tail, htail⟩
  have : c ∈ s.drop i := by
    rw [← htail]
    exact List.mem_append_left tail hc
  exact List.mem_of_mem_drop this

/-! ### Counting lemmas -/

theorem countSub_cons (pat : List Char) (c : Char) (rest : List Char) :
    countSub pat (c :: rest)
      = (if pat.isPrefixOf (c :: rest) then 1 else 0) + countSub pat rest := rfl

theorem countSub_cons_pos {pat : List Char} {c : Char} {rest : List Char}
    (hpre : pat.isPrefixOf (c :: rest) = true) :
    countSub pat (c :: rest) = 1 + countSub pat rest := by
  rw [countSub_cons, hpre]
  simp

theorem countSub_cons_neg {pat : List Char} {c : Char} {rest : List Char}
    (hpre : ¬ pat.isPrefixOf (c :: rest) = true) :
    countSub pat (c :: rest) = countSub pat rest := by
  rw [countSub_cons, if_neg hpre]
  simp

theorem countSub_pos {pat s : List Char} {i : Nat} (hp : pat ≠ [])
    (h : occursAt pat s i) : 1 ≤ countSub pat s := by
  induction s generalizing i with
  | nil => exact absurd h (fun hh => occursAt_nil_false hp hh)
  | cons c rest ih =>
    cases i with
    | zero =>
      have hpre : pat.isPrefixOf (c :: rest) = true :=
        isPrefixOf_eq_true_iff.mpr (occursAt_zero.mp h)
      rw [countSub_cons_pos hpre]
      omega
    | succ j =>
      have := ih (occursAt_cons_succ.mp h)
      rw [countSub_cons]
      omega

theorem countSub_two {pat s : List Char} {i j : Nat} (hp : pat ≠ [])
    (hi : occursAt pat s i) (hj : occursAt pat s j) (hne : i ≠ j) :
    2 ≤ countSub pat s := by
  induction s generalizing i j with
  | nil => exact absurd hi (fun hh => occursAt_nil_false hp hh)
  | cons c rest ih =>
    cases i with
    | zero =>
      cases j with
      | zero => exact absurd rfl hne
      | succ j' =>
        have hpre : pat.isPrefixOf (c :: rest) = true :=
          isPrefixOf_eq_true_iff.mpr (occursAt_zero.mp hi)
        have hrest := countSub_pos hp (occursAt_cons_succ.mp hj)
        rw [countSub_cons_pos hpre]
        omega
    | succ i' =>
      cases j with
      | zero =>
        have hpre : pat.isPrefixOf (c :: rest) = true :=
          isPrefixOf_eq_true_iff.mpr (occursAt_zero.mp hj)
        have hrest := countSub_pos hp (occursAt_cons_succ.mp hi)
        rw [countSub_cons_pos hpre]
        omega
      | succ j' =>
        have := ih (occursAt_cons_succ.mp hi) (occursAt_cons_succ.mp hj)
          (by omega)
        rw [countSub_cons]
        omega

theorem no_occ_of_countSub_zero {pat s : List Char} (hp : pat ≠ [])
    (h : countSub pat s = 0) : ∀ i, ¬ occursAt pat s i := by
  intro i hi
  have := countSub_pos hp hi
  omega

theorem unique_occ_of_countSub_one {pat s : List Char} {i j : Nat}
    (hp : pat ≠ []) (h : countSub pat s = 1) (hi : occursAt pat s i)
    (hj : occursAt pat s j) : i = j := by
  by_contra hne
  have := countSub_two hp hi hj hne
  omega

theorem exists_occ_of_countSub_pos {pat s : List Char}
    (h : 0 < countSub pat s) : ∃ i, occursAt pat s i := by
  induction s with
  | nil => simp [countSub] at h
  | cons c rest ih =>
    by_cases hpre : pat.isPrefixOf (c :: rest)
    · exact ⟨0, occursAt_zero.mpr (isPrefixOf_eq_true_iff.mp hpre)⟩
    · rw [countSub_cons, if_neg hpre] at h
      rcases ih (by omega) with ⟨k, hk⟩
      exact ⟨k + 1, occursAt_cons_succ.mpr hk⟩

theorem countSub_eq_one_of_unique {pat s : List Char} {i : Nat}
    (hp : pat ≠ []) (hi : occursAt pat s i)
    (huniq : ∀ j, occursAt pat s j → j = i) : countSub pat s = 1 := by
  induction s generalizing i with
  | nil => exact absurd hi (fun hh => occursAt_nil_false hp hh)
  | cons c rest ih =>
    by_cases hpre : pat.isPrefixOf (c :: rest)
    · have h0 : occursAt pat (c :: rest) 0 :=
        occursAt_zero.mpr (isPrefixOf_eq_true_iff.mp hpre)
      have hi0 : i = 0 := (huniq 0 h0).symm ▸ (huniq 0 h0) ▸ rfl
      have hrest : countSub pat rest = 0 := by
        by_contra hne
        have hpos : 0 < countSub pat rest := by omega
        rcases exists_occ_of_countSub_pos hpos with ⟨k, hk⟩
        have := huniq (k + 1) (occursAt_cons_succ.mpr hk)
        omega
      rw [countSub_cons_pos (isPrefixOf_eq_true_iff.mpr
        (occursAt_zero.mp h0)), hrest]
    · have hine : i ≠ 0 := by
        intro h0
        subst h0
        exact hpre (isPrefixOf_eq_true_iff.mpr (occursAt_zero.mp hi))
      obtain ⟨i', rfl⟩ : ∃ i', i = i' + 1 := ⟨i - 1, by omega⟩
      have hresti : occursAt pat rest i' := occursAt_cons_succ.mp hi
      have huniq' : ∀ j, occursAt pat rest j → j = i' := by
        intro j hj
        have := huniq (j + 1) (occursAt_cons_succ.mpr hj)
        omega
      rw [countSub_cons, if_neg hpre, ih hresti huniq']

/-! ### Replacement lemmas -/

theorem replaceAllGo_self {pat : List Char} (hp : pat ≠ []) :
    ∀ (fuel : Nat) (s : List Char), s.length ≤ fuel →
      replaceAllGo pat pat fuel s = s := by
  intro fuel
  induction fuel with
  | zero =>
    intro s hs
    cases s with
    | nil => rfl
    | cons c rest => simp at hs
  | succ fuel ih =>
    intro s hs
    cases s with
    | nil => rfl
    | cons c rest =>
      by_cases hpre : pat.isPrefixOf (c :: rest)
      · obtain ⟨t, ht⟩ := isPrefixOf_eq_true_iff.mp hpre
        have hdrop : (c :: rest).drop pat.length = t := by
          rw [← ht]
          exact List.drop_left pat t
        have hlen : t.length ≤ fuel := by
          have : pat.length + t.length = (c :: rest).length := by
            rw [← ht]
            simp
          have hpl : 1 ≤ pat.length := by
            cases pat with
            | nil => exact absurd rfl hp
            | cons p ps => simp
          simp only [List.length_cons] at hs this
          omega
        simp only [replaceAllGo, if_pos (And.intro hp hpre), hdrop, ih t hlen]
        exact ht
      · have hcond : ¬ (pat ≠ [] ∧ pat.isPrefixOf (c :: rest)) := by
          intro hc
          exact hpre hc.2
        simp only [replaceAllGo, if_neg hcond]
        have hlen : rest.length ≤ fuel := by
          simp only [List.length_cons] at hs
          omega
        rw [ih rest hlen]

theorem replaceAll_self {pat : List Char} (hp : pat ≠ []) (s : List Char) :
    replaceAll pat pat s = s :=
  replaceAllGo_self hp s.length s (Nat.le_refl _)

theorem replaceAllGo_no_occ {pat repl : List Char} (hp : pat ≠ []) :
    ∀ (fuel : Nat) (s : List Char), s.length ≤ fuel →
      (∀ i, ¬ occursAt pat s i) → replaceAllGo pat repl fuel s = s := by
  intro fuel
  induction fuel with
  | zero =>
    intro s hs hno
    cases s with
    | nil => rfl
    | cons c rest => simp at hs
  | succ fuel ih =>
    intro s hs hno
    cases s with
    | nil => rfl
    | cons c rest =>
      have hpre : ¬ pat.isPrefixOf (c :: rest) = true := by
        intro hc
        exact hno 0 (occursAt_zero.mpr (isPrefixOf_eq_true_iff.mp hc))
      have hcond : ¬ (pat ≠ [] ∧ pat.isPrefixOf (c :: rest)) := by
        intro hc
        exact hpre hc.2
      simp only [replaceAllGo, if_neg hcond]
      have hlen : rest.length ≤ fuel := by
        simp only [List.length_cons] at hs
        omega
      rw [ih rest hlen (fun i hi => hno (i + 1) (occursAt_cons_succ.mpr hi))]

theorem replaceAll_no_occ {pat repl : List Char} (hp : pat ≠ [])
    {s : List Char} (hno : ∀ i, ¬ occursAt pat s i) :
    replaceAll pat repl s = s :=
  replaceAllGo_no_occ hp s.length s (Nat.le_refl _) hno

theorem replaceAllGo_unique {pat repl : List Char} (hp : pat ≠ []) :
    ∀ (a b : List Char) (fuel : Nat), (a ++ pat ++ b).length ≤ fuel →
      countSub pat (a ++ pat ++ b) = 1 →
      replaceAllGo pat repl fuel (a ++ pat ++ b) = a ++ repl ++ b := by
  intro a
  induction a with
  | nil =>
    intro b fuel hfuel hcount
    cases pat with
    | nil => exact absurd rfl hp
    | cons pc pr =>
      cases fuel with
      | zero => simp at hfuel
      | succ fuel =>
        simp only [List.nil_append] at hfuel hcount ⊢
        have hpre : (pc :: pr).isPrefixOf (pc :: pr ++ b) = true :=
          isPrefixOf_eq_true_iff.mpr ⟨b, by simp⟩
        have hcond : (pc :: pr ≠ []) ∧ (pc :: pr).isPrefixOf (pc :: (pr ++ b)) := by
          refine ⟨by simp, ?_⟩
          simpa using hpre
        have hnob : ∀ i, ¬ occursAt (pc :: pr) b i := by
          intro i hi
          have h1 : occursAt (pc :: pr) ((pc :: pr) ++ b) 0 :=
            occursAt_zero.mpr (List.prefix_append _ _)
          have h2 : occursAt (pc :: pr) ((pc :: pr) ++ b) ((pc :: pr).length + i) :=
            occursAt_append_right hi
          have hlc : (pc :: pr).length = pr.length + 1 := by simp
          have := countSub_two hp h1 h2 (by omega)
          omega
        have hdrop : (pc :: (pr ++ b)).drop (pc :: pr).length = b := by
          have : (pc :: (pr ++ b)) = (pc :: pr) ++ b := by simp
          rw [this]
          exact List.drop_left _ _
        have hlen : b.length ≤ fuel := by
          simp only [List.length_cons, List.length_append] at hfuel
          omega
        simp only [List.cons_append, replaceAllGo, List.append_eq]
        rw [if_pos hcond, hdrop, replaceAllGo_no_occ hp fuel b hlen hnob]
  | cons c a' ih =>
    intro b fuel hfuel hcount
    cases fuel with
    | zero => simp at hfuel
    | succ fuel =>
      have hself : occursAt pat ((c :: a') ++ pat ++ b) (c :: a').length :=
        occursAt_append_self (c :: a') pat b
      have hpre : ¬ pat.isPrefixOf (c :: (a' ++ pat ++ b)) = true := by
        intro hc
        have h0 : occursAt pat ((c :: a') ++ pat ++ b) 0 := by
          rw [occursAt_zero]
          have : (c :: a') ++ pat ++ b = c :: (a' ++ pat ++ b) := by simp
          rw [this]
          exact isPrefixOf_eq_true_iff.mp hc
        have := countSub_two hp h0 hself (by simp)
        omega
      have hcond : ¬ (pat ≠ [] ∧ pat.isPrefixOf (c :: (a' ++ pat ++ b))) := by
        intro hc
        exact hpre hc.2
      have hstep : (c :: a') ++ pat ++ b = c :: (a' ++ pat ++ b) := by simp
      rw [hstep] at hcount hfuel
      have hcount' : countSub pat (a' ++ pat ++ b) = 1 := by
        rw [countSub_cons_neg hpre] at hcount
        exact hcount
      have hlen : (a' ++ pat ++ b).length ≤ fuel := by
        simp only [List.length_cons] at hfuel
        omega
      rw [hstep]
      simp only [replaceAllGo, if_neg hcond]
      rw [ih b fuel hlen hcount']
      simp

theorem replaceAll_unique {pat repl : List Char} (hp : pat ≠ [])
    {a b : List Char} (hcount : countSub pat (a ++ pat ++ b) = 1) :
    replaceAll pat repl (a ++ pat ++ b) = a ++ repl ++ b :=
  replaceAllGo_unique hp a b (a ++ pat ++ b).length (Nat.le_refl _) hcount

/-! ### Pattern-matching lemmas -/

theorem starScan_some_decompose {B : List Char} :
    ∀ {t mid : List Char}, starScan B t = some mid →
      ∃ rest, t = mid ++ B ++ rest ∧ '\n' ∉ mid := by
  intro t
  induction t with
  | nil =>
    intro mid h
    simp only [starScan] at h
    by_cases hB : B = []
    · rw [if_pos hB] at h
      injection h with h
      exact ⟨[], by simp [← h, hB], by simp [← h]⟩
    · rw [if_neg hB] at h
      exact absurd h (by simp)
  | cons c r ih =>
    intro mid h
    simp only [starScan] at h
    by_cases hpre : B.isPrefixOf (c :: r)
    · rw [if_pos hpre] at h
      injection h with h
      obtain ⟨tail, htail⟩ := isPrefixOf_eq_true_iff.mp hpre
      exact ⟨tail, by simp [← h, ← htail], by simp [← h]⟩
    · rw [if_neg hpre] at h
      by_cases hnl : c = '\n'
      · rw [if_pos hnl] at h
        exact absurd h (by simp)
      · rw [if_neg hnl] at h
        rcases Option.map_eq_some'.mp h with ⟨mid', hmid', rfl⟩
        rcases ih hmid' with ⟨rest, hrest, hclean⟩
        refine ⟨rest, by simp [hrest], ?_⟩
        intro hmem
        rcases List.mem_cons.mp hmem with hc | hc
        · exact hnl hc.symm
        · exact hclean hc

theorem starScan_exact {b0 : Char} {B' : List Char} :
    ∀ (u y : List Char), '\n' ∉ u → b0 ∉ u →
      starScan (b0 :: B') (u ++ (b0 :: B') ++ y) = some u := by
  intro u
  induction u with
  | nil =>
    intro y _ _
    have hpre : (b0 :: B').isPrefixOf (b0 :: B' ++ y) = true := by
      rw [isPrefixOf_eq_true_iff]
      exact ⟨y, by simp⟩
    cases hBy : (b0 :: B') ++ y with
    | nil => simp at hBy
    | cons d rest =>
      simp only [List.nil_append, hBy] at hpre ⊢
      simp only [starScan, if_pos hpre]
  | cons c u' ih =>
    intro y hnl hb0
    have hc_nl : c ≠ '\n' := by
      intro hc
      exact hnl (by simp [hc])
    have hc_b0 : b0 ≠ c := by
      intro hc
      exact hb0 (by simp [hc])
    have hpre : ¬ (b0 :: B').isPrefixOf (c :: (u' ++ (b0 :: B') ++ y)) = true := by
      intro hcon
      obtain ⟨tail, htail⟩ := isPrefixOf_eq_true_iff.mp hcon
      have : b0 = c := by
        have := congrArg (fun l => l.head?) htail
        simpa using this
      exact hc_b0 this
    have hstep : (c :: u') ++ (b0 :: B') ++ y = c :: (u' ++ (b0 :: B') ++ y) := by
      simp
    rw [hstep]
    simp only [starScan, if_neg hpre, if_neg hc_nl]
    rw [ih y (fun hm => hnl (by simp [hm])) (fun hm => hb0 (by simp [hm]))]
    rfl

theorem matchPat_some_decompose {A B s m : List Char}
    (h : matchPat A B s = some m) :
    ∃ mid rest, s = A ++ mid ++ B ++ rest ∧ '\n' ∉ mid ∧ m = A ++ mid ++ B := by
  unfold matchPat at h
  by_cases hpre : A.isPrefixOf s
  · rw [if_pos hpre] at h
    rcases Option.map_eq_some'.mp h with ⟨mid, hmid, rfl⟩
    rcases starScan_some_decompose hmid with ⟨rest, hrest, hclean⟩
    obtain ⟨tail, htail⟩ := isPrefixOf_eq_true_iff.mp hpre
    have hs : s = A ++ s.drop A.length := by
      rw [← htail]
      rw [List.drop_left]
    refine ⟨mid, rest, ?_, hclean, rfl⟩
    rw [hs, hrest]
    simp
  · rw [if_neg hpre] at h
    exact absurd h (by simp)

theorem matchPat_none_of_no_A {A B s : List Char} (hA : ¬ A <+: s) :
    matchPat A B s = none := by
  unfold matchPat
  rw [if_neg]
  intro hc
  exact hA (isPrefixOf_eq_true_iff.mp hc)

theorem matchPat_exact {A : List Char} {b0 : Char} {B' : List Char}
    (u y : List Char) (hnl : '\n' ∉ u) (hb0 : b0 ∉ u) :
    matchPat A (b0 :: B') (A ++ u ++ (b0 :: B') ++ y)
      = some (A ++ u ++ (b0 :: B')) := by
  unfold matchPat
  have harr : A ++ u ++ (b0 :: B') ++ y = A ++ (u ++ (b0 :: B') ++ y) := by
    simp
  have hpre : A.isPrefixOf (A ++ u ++ (b0 :: B') ++ y) = true := by
    rw [isPrefixOf_eq_true_iff, harr]
    exact List.prefix_append _ _
  rw [if_pos hpre, harr, List.drop_left, starScan_exact u y hnl hb0]
  simp

theorem searchPat_some_decompose {A B : List Char} :
    ∀ {s m : List Char}, searchPat A B s = some m →
      ∃ pre mid rest, s = pre ++ A ++ mid ++ B ++ rest ∧ '\n' ∉ mid ∧
        m = A ++ mid ++ B := by
  intro s
  induction s with
  | nil =>
    intro m h
    simp only [searchPat] at h
    rcases matchPat_some_decompose h with ⟨mid, rest, hs, hclean, hm⟩
    exact ⟨[], mid, rest, by simpa using hs, hclean, hm⟩
  | cons c r ih =>
    intro m h
    simp only [searchPat] at h
    cases hm : matchPat A B (c :: r) with
    | some m' =>
      rw [hm] at h
      injection h with h
      subst h
      rcases matchPat_some_decompose hm with ⟨mid, rest, hs, hclean, hm'⟩
      exact ⟨[], mid, rest, by simpa using hs, hclean, hm'⟩
    | none =>
      rw [hm] at h
      rcases ih h with ⟨pre, mid, rest, hs, hclean, hm'⟩
      exact ⟨c :: pre, mid, rest, by simp [hs], hclean, hm'⟩

theorem searchPat_none_of_no_tail {A B : List Char} (hB : B ≠ [])
    {s : List Char} (h : ∀ i, ¬ occursAt B s i) : searchPat A B s = none := by
  cases hsp : searchPat A B s with
  | none => rfl
  | some m =>
    exfalso
    rcases searchPat_some_decompose hsp with ⟨pre, mid, rest, hs, _, _⟩
    have hocc : occursAt B s (pre ++ A ++ mid).length := by
      have : s = (pre ++ A ++ mid) ++ B ++ rest := by
        rw [hs]
      rw [this]
      exact occursAt_append_self _ _ _
    exact h _ hocc

theorem searchPat_append_skip {A B : List Char} :
    ∀ (x y : List Char),
      (∀ i, i < x.length → matchPat A B ((x ++ y).drop i) = none) →
      searchPat A B (x ++ y) = searchPat A B y := by
  intro x
  induction x with
  | nil => intro y _; rfl
  | cons c x' ih =>
    intro y h
    have h0 : matchPat A B (c :: (x' ++ y)) = none := by
      have := h 0 (by simp)
      simpa using this
    have hstep : (c :: x') ++ y = c :: (x' ++ y) := by simp
    rw [hstep]
    simp only [searchPat, h0]
    exact ih y (fun i hi => by
      have := h (i + 1) (by simp; omega)
      simpa using this)

/-! ### Search completeness (a present match is always found) -/

theorem starScan_isSome {B : List Char} (hB : B ≠ []) :
    ∀ (mid rest : List Char), '\n' ∉ mid →
      (starScan B (mid ++ B ++ rest)).isSome := by
  intro mid
  induction mid with
  | nil =>
    intro rest _
    cases hB' : B with
    | nil => exact absurd hB' hB
    | cons b0 bt =>
      have hpre : (b0 :: bt).isPrefixOf (b0 :: (bt ++ rest)) = true := by
        rw [isPrefixOf_eq_true_iff]
        exact ⟨rest, by simp⟩
      simp [starScan, hpre]
  | cons c mid' ih =>
    intro rest hnl
    have hc : c ≠ '\n' := fun hcon => hnl (by simp [hcon])
    have hstep : (c :: mid') ++ B ++ rest = c :: (mid' ++ B ++ rest) := by simp
    rw [hstep]
    by_cases hpre : B.isPrefixOf (c :: (mid' ++ B ++ rest))
    · have hpre' : B <+: c :: (mid' ++ (B ++ rest)) := by
        have := isPrefixOf_eq_true_iff.mp hpre
        simpa [List.append_assoc] using this
      simp [starScan, hpre']
    · simp only [starScan, if_neg hpre, if_neg hc]
      have := ih rest (fun hm => hnl (by simp [hm]))
      rcases Option.isSome_iff_exists.mp this with ⟨m, hm⟩
      rw [hm]
      simp

theorem searchPat_isSome_append {A B : List Char} :
    ∀ (x z : List Char), (matchPat A B z).isSome →
      (searchPat A B (x ++ z)).isSome := by
  intro x
  induction x with
  | nil =>
    intro z hz
    cases z with
    | nil => simpa [searchPat] using hz
    | cons c r =>
      rcases Option.isSome_iff_exists.mp hz with ⟨m, hm⟩
      simp only [List.nil_append, searchPat, hm]
      simp
  | cons c x' ih =>
    intro z hz
    have hstep : (c :: x') ++ z = c :: (x' ++ z) := by simp
    rw [hstep]
    cases hm : matchPat A B (c :: (x' ++ z)) with
    | some m => simp [searchPat, hm]
    | none =>
      simp only [searchPat, hm]
      exact ih z hz

theorem searchPat_isSome_of_decomp {A B : List Char} (hB : B ≠ [])
    (pre mid rest : List Char) (hclean : '\n' ∉ mid) :
    (searchPat A B (pre ++ A ++ mid ++ B ++ rest)).isSome := by
  have hmat : (matchPat A B (A ++ (mid ++ B ++ rest))).isSome := by
    unfold matchPat
    have hpre : A.isPrefixOf (A ++ (mid ++ B ++ rest)) = true := by
      rw [isPrefixOf_eq_true_iff]
      exact List.prefix_append _ _
    rw [if_pos hpre, List.drop_left]
    have := starScan_isSome hB mid rest hclean
    rcases Option.isSome_iff_exists.mp this with ⟨m, hm⟩
    rw [hm]
    simp
  have harr : pre ++ A ++ mid ++ B ++ rest = pre ++ (A ++ (mid ++ B ++ rest)) := by
    simp
  rw [harr]
  exact searchPat_isSome_append pre _ hmat

/-- C8: on an article body containing no text matching the
`_PREVIOUS_PATTERN` regular expression `'<a href=".*?">Previous</a>'`
(no decomposition `pre ++ '<a href="' ++ mid ++ '">Previous</a>' ++ post`
with a newline-free `mid`), `insert_previous_link` returns the HTML
unchanged: it only ever replaces an existing Previous anchor and never
creates one. -/
theorem c8_previous_only_replaces (html targetPath : List Char)
    (h : ¬ ∃ pre mid post,
      html = pre ++ prevAnchorOpen ++ mid ++ prevAnchorClose ++ post ∧
      '\n' ∉ mid) :
    insert_previous_link html targetPath = html := by
  unfold insert_previous_link
  cases hsp : searchPat prevAnchorOpen prevAnchorClose html with
  | none => rfl
  | some m =>
    exfalso
    rcases searchPat_some_decompose hsp with ⟨pre, mid, rest, hs, hclean, _⟩
    exact h ⟨pre, mid, rest, hs, hclean⟩

/-- Witness for C8 on a concrete article body with a Next anchor and a
home link but no Previous anchor. -/
theorem c8_witness :
    (¬ ∃ pre mid post,
      ("<p>post</p> Home</a> <a href=\"../b\">Next</a>").data
        = pre ++ prevAnchorOpen ++ mid ++ prevAnchorClose ++ post ∧
      '\n' ∉ mid) ∧
    insert_previous_link (("<p>post</p> Home</a> <a href=\"../b\">Next</a>").data)
      ['a'] = ("<p>post</p> Home</a> <a href=\"../b\">Next</a>").data := by
  have hno : ¬ ∃ pre mid post,
      ("<p>post</p> Home</a> <a href=\"../b\">Next</a>").data
        = pre ++ prevAnchorOpen ++ mid ++ prevAnchorClose ++ post ∧
      '\n' ∉ mid := by
    intro hcon
    rcases hcon with ⟨pre, mid, post, hs, hclean⟩
    have hsome := searchPat_isSome_of_decomp (A := prevAnchorOpen)
      (B := prevAnchorClose) (by decide) pre mid post hclean
    rw [← hs] at hsome
    rw [show searchPat prevAnchorOpen prevAnchorClose
        (("<p>post</p> Home</a> <a href=\"../b\">Next</a>").data) = none
      from by decide] at hsome
    simp at hsome
  exact ⟨hno, c8_previous_only_replaces _ ['a'] hno⟩

/-! ### Helpers for the Next-link analysis -/

theorem countSub_one_decompose {pat : List Char} :
    ∀ {s : List Char}, countSub pat s = 1 → ∃ a b, s = a ++ pat ++ b := by
  intro s
  induction s with
  | nil => intro h; simp [countSub] at h
  | cons c rest ih =>
    intro h
    by_cases hpre : pat.isPrefixOf (c :: rest)
    · obtain ⟨t, ht⟩ := isPrefixOf_eq_true_iff.mp hpre
      exact ⟨[], t, by simp [← ht]⟩
    · rw [countSub_cons_neg hpre] at h
      rcases ih h with ⟨a, b, hab⟩
      exact ⟨c :: a, b, by simp [hab]⟩

theorem head?_of_prefix {p q : List Char} (h : p <+: q) (hne : p ≠ []) :
    q.head? = p.head? := by
  rcases h with ⟨t, rfl⟩
  cases p with
  | nil => exact absurd rfl hne
  | cons c r => rfl

theorem searchPat_of_matchPat_some {A B s m : List Char} (hs : s ≠ [])
    (h : matchPat A B s = some m) : searchPat A B s = some m := by
  cases s with
  | nil => exact absurd rfl hs
  | cons c r => simp [searchPat, h]

theorem occursAt_shift_sub {pat x y : List Char} {i : Nat}
    (hge : x.length ≤ i) (h : occursAt pat (x ++ y) i) :
    occursAt pat y (i - x.length) := by
  unfold occursAt at *
  rwa [drop_append_ge hge] at h

theorem drop_one_len {a : List Char} (h : 1 ≤ a.length) :
    ∃ c, a.drop (a.length - 1) = [c] := by
  have hlen : (a.drop (a.length - 1)).length = 1 := by
    rw [List.length_drop]
    omega
  cases hd : a.drop (a.length - 1) with
  | nil => rw [hd] at hlen; simp at hlen
  | cons c t =>
    rw [hd] at hlen
    simp at hlen
    subst hlen
    exact ⟨c, rfl⟩

theorem take_append_prefix_eq {x y z : List Char} {n : Nat}
    (h : n ≤ x.length) : (x ++ y).take n = (x ++ z).take n := by
  rw [List.take_append_eq_append_take, List.take_append_eq_append_take,
    Nat.sub_eq_zero_of_le h]
  simp

/-- In `a ++ nextLink ++ b` built from an HTML body `a ++ 'Home</a>' ++ b`
containing the key exactly once, the key still occurs only at the spliced
position. -/
theorem keyOcc_unique {a b targetPath : List Char}
    (hkey : countSub nextTagKey (a ++ nextTagKey ++ b) = 1)
    (hlt : '<' ∉ targetPath) :
    ∀ i, occursAt nextTagKey (a ++ nextLinkOf targetPath ++ b) i →
      i = a.length := by
  intro i hi
  have hselfHtml : occursAt nextTagKey (a ++ nextTagKey ++ b) a.length :=
    occursAt_append_self _ _ _
  have hurlmem : '<' ∉ ('.' :: '.' :: '/' :: targetPath) := by
    intro hm
    rcases List.mem_cons.mp hm with hc | hm
    · exact absurd hc (by decide)
    rcases List.mem_cons.mp hm with hc | hm
    · exact absurd hc (by decide)
    rcases List.mem_cons.mp hm with hc | hm
    · exact absurd hc (by decide)
    exact hlt hm
  have hk8 : nextTagKey.length = 8 := by decide
  have hC18len : (nextTagKey ++ nextAnchorOpen).length = 18 := by decide
  by_cases hle : i ≤ a.length
  · have htake : (a ++ nextLinkOf targetPath ++ b).take (i + nextTagKey.length)
        = (a ++ nextTagKey ++ b).take (i + nextTagKey.length) := by
      have h1 : a ++ nextLinkOf targetPath ++ b
          = (a ++ nextTagKey) ++ (nextAnchorOpen
              ++ ('.' :: '.' :: '/' :: targetPath) ++ nextAnchorClose ++ b) := by
        simp [nextLinkOf]
      rw [h1]
      exact take_append_prefix_eq (by
        simp only [List.length_append]
        omega)
    have hhtml := (occursAt_congr_take htake).mp hi
    exact unique_occ_of_countSub_one (by decide) hkey hhtml hselfHtml
  · exfalso
    have hiL : occursAt nextTagKey (nextLinkOf targetPath ++ b) (i - a.length) := by
      have harr : a ++ nextLinkOf targetPath ++ b
          = a ++ (nextLinkOf targetPath ++ b) := by simp
      rw [harr] at hi
      exact occursAt_shift_sub (by omega) hi
    have hj1 : 1 ≤ i - a.length := by omega
    have hdecomp : nextLinkOf targetPath ++ b
        = (nextTagKey ++ nextAnchorOpen) ++ (('.' :: '.' :: '/' :: targetPath)
            ++ (nextAnchorClose ++ b)) := by
      simp [nextLinkOf]
    rw [hdecomp] at hiL
    rcases occursAt_append_elim (by decide) hiL with
      ⟨hlen1, hocc1⟩ | ⟨hge1, hocc1⟩ | ⟨g1, g2, gtk, gdp⟩
    · have hall : ∀ k, k < 18 →
          occursAt nextTagKey (nextTagKey ++ nextAnchorOpen) k → k = 0 := by
        decide
      have := hall (i - a.length) (by omega) hocc1
      omega
    · rcases occursAt_append_elim (by decide) hocc1 with
        ⟨hlen2, hocc2⟩ | ⟨hge2, hocc2⟩ | ⟨e1, e2, etk, edp⟩
      · exact hurlmem (mem_of_occursAt hocc2 (by decide))
      · rcases occursAt_append_elim (by decide) hocc2 with
          ⟨hlen3, hocc3⟩ | ⟨hge3, hocc3⟩ | ⟨f1, f2, ftk, fdp⟩
        · have hall : ∀ k, k < 10 →
              ¬ occursAt nextTagKey nextAnchorClose k := by decide
          have hcl : nextAnchorClose.length = 10 := by decide
          exact hall _ (by omega) hocc3
        · have hocc4 := occursAt_append_right (x := a ++ nextTagKey) hocc3
          have heq : a ++ nextTagKey ++ b = (a ++ nextTagKey) ++ b := rfl
          rw [← heq] at hocc4
          have := unique_occ_of_countSub_one (by decide) hkey hocc4 hselfHtml
          simp only [List.length_append] at this
          omega
        · have hcl : nextAnchorClose.length = 10 := by decide
          rw [hcl] at ftk f1 f2
          have hall : ∀ k, k < 10 → 10 < k + nextTagKey.length →
              nextTagKey.take (10 - k) ≠ nextAnchorClose.drop k := by decide
          exact hall _ f1 f2 ftk
      · obtain ⟨m, hmdef, hm1, hm7⟩ :
            ∃ m, ('.' :: '.' :: '/' :: targetPath).length
              - (i - a.length - (nextTagKey ++ nextAnchorOpen).length) = m ∧
              1 ≤ m ∧ m ≤ 7 := by
          refine ⟨_, rfl, ?_, ?_⟩
          · omega
          · rw [hk8] at e2
            omega
        rw [hmdef] at etk edp
        interval_cases m
        · simp only [nextTagKey, nextAnchorClose] at edp
          simp only [List.drop_succ_cons, List.drop_zero, List.cons_append] at edp
          exact absurd ( List.cons_prefix_cons.mp edp).1 (by decide)
        · simp only [nextTagKey, nextAnchorClose] at edp
          simp only [List.drop_succ_cons, List.drop_zero, List.cons_append] at edp
          exact absurd ( List.cons_prefix_cons.mp edp).1 (by decide)
        · simp only [nextTagKey, nextAnchorClose] at edp
          simp only [List.drop_succ_cons, List.drop_zero, List.cons_append] at edp
          exact absurd ( List.cons_prefix_cons.mp edp).1 (by decide)
        · simp only [nextTagKey, nextAnchorClose] at edp
          simp only [List.drop_succ_cons, List.drop_zero, List.cons_append] at edp
          exact absurd ( List.cons_prefix_cons.mp edp).1 (by decide)
        · have hmem : '<' ∈ nextTagKey.take 5 := by decide
          rw [etk] at hmem
          exact hurlmem (List.mem_of_mem_drop hmem)
        · have hmem : '<' ∈ nextTagKey.take 6 := by decide
          rw [etk] at hmem
          exact hurlmem (List.mem_of_mem_drop hmem)
        · have hmem : '<' ∈ nextTagKey.take 7 := by decide
          rw [etk] at hmem
          exact hurlmem (List.mem_of_mem_drop hmem)
    · rw [hC18len] at g1 g2 gtk
      have hall : ∀ k, k < 18 → 18 < k + nextTagKey.length →
          nextTagKey.take (18 - k) ≠ (nextTagKey ++ nextAnchorOpen).drop k := by
        decide
      exact hall _ g1 g2 gtk

/-- In `a ++ nextLink ++ b` built from an HTML body `a ++ 'Home</a>' ++ b`
containing no text `'">Next</a>'`, the closing anchor text occurs exactly
at the end of the spliced link. -/
theorem closeOcc_unique {a b targetPath : List Char}
    (hclose : countSub nextAnchorClose (a ++ nextTagKey ++ b) = 0)
    (hq : '"' ∉ targetPath) :
    ∀ i, occursAt nextAnchorClose (a ++ nextLinkOf targetPath ++ b) i →
      i = a.length + 21 + targetPath.length := by
  intro i hi
  have hurlq : '"' ∉ ('.' :: '.' :: '/' :: targetPath) := by
    intro hm
    rcases List.mem_cons.mp hm with hc | hm
    · exact absurd hc (by decide)
    rcases List.mem_cons.mp hm with hc | hm
    · exact absurd hc (by decide)
    rcases List.mem_cons.mp hm with hc | hm
    · exact absurd hc (by decide)
    exact hq hm
  have hk8 : nextTagKey.length = 8 := by decide
  have hcl : nextAnchorClose.length = 10 := by decide
  have hC18len : (nextTagKey ++ nextAnchorOpen).length = 18 := by decide
  have hnoHtml : ∀ k, ¬ occursAt nextAnchorClose (a ++ nextTagKey ++ b) k :=
    no_occ_of_countSub_zero (by decide) hclose
  have h1 : a ++ nextLinkOf targetPath ++ b
      = (a ++ nextTagKey) ++ (nextAnchorOpen
          ++ ('.' :: '.' :: '/' :: targetPath) ++ nextAnchorClose ++ b) := by
    simp [nextLinkOf]
  by_cases hle2 : i + 2 ≤ a.length
  · exfalso
    have htake : (a ++ nextLinkOf targetPath ++ b).take (i + nextAnchorClose.length)
        = (a ++ nextTagKey ++ b).take (i + nextAnchorClose.length) := by
      rw [h1]
      exact take_append_prefix_eq (by
        simp only [List.length_append]
        omega)
    exact hnoHtml i ((occursAt_congr_take htake).mp hi)
  · by_cases hle : i ≤ a.length
    · exfalso
      by_cases hia : i = a.length
      · subst hia
        have hdropL : (a ++ nextLinkOf targetPath ++ b).drop a.length
            = nextLinkOf targetPath ++ b := by
          rw [show a ++ nextLinkOf targetPath ++ b
            = a ++ (nextLinkOf targetPath ++ b) from by simp]
          exact List.drop_left _ _
        unfold occursAt at hi
        rw [hdropL] at hi
        have hh := head?_of_prefix hi (by decide)
        have hH : (nextLinkOf targetPath ++ b).head? = some 'H' := by
          simp [nextLinkOf, nextTagKey]
        rw [hH] at hh
        simp [nextAnchorClose] at hh
      · have hi1 : i = a.length - 1 := by omega
        have ha1 : 1 ≤ a.length := by omega
        obtain ⟨c0, hc0⟩ := drop_one_len ha1
        unfold occursAt at hi
        have hdrop : (a ++ nextLinkOf targetPath ++ b).drop i
            = a.drop i ++ (nextLinkOf targetPath ++ b) := by
          rw [show a ++ nextLinkOf targetPath ++ b
            = a ++ (nextLinkOf targetPath ++ b) from by simp]
          exact drop_append_le (by omega)
        rw [hdrop, hi1, hc0] at hi
        simp only [nextAnchorClose, List.singleton_append] at hi
        rcases ( List.cons_prefix_cons.mp hi) with ⟨-, hi2⟩
        have hh := head?_of_prefix hi2 (by simp)
        have hH : (nextLinkOf targetPath ++ b).head? = some 'H' := by
          simp [nextLinkOf, nextTagKey]
        rw [hH] at hh
        simp at hh
    · have hiL : occursAt nextAnchorClose (nextLinkOf targetPath ++ b)
          (i - a.length) := by
        have harr : a ++ nextLinkOf targetPath ++ b
            = a ++ (nextLinkOf targetPath ++ b) := by simp
        rw [harr] at hi
        exact occursAt_shift_sub (by omega) hi
      have hdecomp : nextLinkOf targetPath ++ b
          = (nextTagKey ++ nextAnchorOpen) ++ (('.' :: '.' :: '/' :: targetPath)
              ++ (nextAnchorClose ++ b)) := by
        simp [nextLinkOf]
      rw [hdecomp] at hiL
      rcases occursAt_append_elim (by decide) hiL with
        ⟨hlen1, hocc1⟩ | ⟨hge1, hocc1⟩ | ⟨g1, g2, gtk, gdp⟩
      · exfalso
        have hall : ∀ k, k < 18 →
            ¬ occursAt nextAnchorClose (nextTagKey ++ nextAnchorOpen) k := by
          decide
        exact hall _ (by omega) hocc1
      · rcases occursAt_append_elim (by decide) hocc1 with
          ⟨hlen2, hocc2⟩ | ⟨hge2, hocc2⟩ | ⟨e1, e2, etk, edp⟩
        · exact absurd (mem_of_occursAt hocc2 (by decide)) hurlq
        · rcases occursAt_append_elim (by decide) hocc2 with
            ⟨hlen3, hocc3⟩ | ⟨hge3, hocc3⟩ | ⟨f1, f2, ftk, fdp⟩
          · have hall : ∀ k, k < 10 →
                occursAt nextAnchorClose nextAnchorClose k → k = 0 := by decide
            have hz := hall _ (by omega) hocc3
            simp only [List.length_cons, hC18len] at hge1 hge2 hz
            omega
          · exfalso
            have hocc4 := occursAt_append_right (x := a ++ nextTagKey) hocc3
            have heq : a ++ nextTagKey ++ b = (a ++ nextTagKey) ++ b := rfl
            rw [← heq] at hocc4
            exact hnoHtml _ hocc4
          · exfalso
            rw [hcl] at ftk f1 f2
            have hall : ∀ k, k < 10 → 10 < k + nextAnchorClose.length →
                nextAnchorClose.take (10 - k) ≠ nextAnchorClose.drop k := by
              decide
            exact hall _ f1 f2 ftk
        · exfalso
          obtain ⟨m, hmdef, hm1⟩ :
              ∃ m, ('.' :: '.' :: '/' :: targetPath).length
                - (i - a.length - (nextTagKey ++ nextAnchorOpen).length) = m ∧
                1 ≤ m := by
            refine ⟨_, rfl, ?_⟩
            omega
          rw [hmdef] at etk
          have hmem : '"' ∈ nextAnchorClose.take m := by
            cases m with
            | zero => omega
            | succ m' =>
              simp [nextAnchorClose]
          rw [etk] at hmem
          exact absurd (List.mem_of_mem_drop hmem) hurlq
      · exfalso
        rw [hC18len] at g1 g2 gtk gdp
        have hall : ∀ k, k < 18 → 18 < k + nextAnchorClose.length →
            nextAnchorClose.take (18 - k) = (nextTagKey ++ nextAnchorOpen).drop k
              → k = 17 := by
          decide
        have hj17 := hall _ g1 (by omega) gtk
        rw [hj17] at gdp
        simp only [nextAnchorClose, show (18 : Nat) - 17 = 1 from rfl,
          List.drop_succ_cons, List.drop_zero] at gdp
        exact absurd ( List.cons_prefix_cons.mp gdp).1 (by decide)

/-- C7 counterexample: on the empty article body — which contains no
`'Home</a>'` marker — both calls leave the HTML empty, so the result
holds zero Next anchors, not exactly one as the claim requires of every
article HTML body. -/
theorem c7_counterexample :
    insert_next_link (insert_next_link [] ['b']) ['b'] = [] ∧
    countSub nextAnchorClose
      (insert_next_link (insert_next_link [] ['b']) ['b']) = 0 := by
  decide

/-- C7 amended: on an article body containing the home-link marker
`'Home</a>'` exactly once and no occurrence of the closing anchor text
`'">Next</a>'` (in particular no existing Next anchor), and a next
target path free of `'"'`, `'<'` and newline, the first
`insert_next_link` call yields HTML with exactly one Next anchor
(counting occurrences of the closing text `'">Next</a>'`), and a second
call with the same next article returns that HTML unchanged. -/
theorem c7_next_link_idempotent (html targetPath : List Char)
    (hkey : countSub nextTagKey html = 1)
    (hclose : countSub nextAnchorClose html = 0)
    (hq : '"' ∉ targetPath) (hlt : '<' ∉ targetPath)
    (hnl : '\n' ∉ targetPath) :
    countSub nextAnchorClose (insert_next_link html targetPath) = 1 ∧
    insert_next_link (insert_next_link html targetPath) targetPath
      = insert_next_link html targetPath := by
  rcases countSub_one_decompose hkey with ⟨a, b, rfl⟩
  have hurlq : '"' ∉ ('.' :: '.' :: '/' :: targetPath) := by
    intro hm
    rcases List.mem_cons.mp hm with hc | hm
    · exact absurd hc (by decide)
    rcases List.mem_cons.mp hm with hc | hm
    · exact absurd hc (by decide)
    rcases List.mem_cons.mp hm with hc | hm
    · exact absurd hc (by decide)
    exact hq hm
  have hurlnl : '\n' ∉ ('.' :: '.' :: '/' :: targetPath) := by
    intro hm
    rcases List.mem_cons.mp hm with hc | hm
    · exact absurd hc (by decide)
    rcases List.mem_cons.mp hm with hc | hm
    · exact absurd hc (by decide)
    rcases List.mem_cons.mp hm with hc | hm
    · exact absurd hc (by decide)
    exact hnl hm
  have hs1 : searchPat (nextTagKey ++ nextAnchorOpen) nextAnchorClose
      (a ++ nextTagKey ++ b) = none :=
    searchPat_none_of_no_tail (by decide)
      (no_occ_of_countSub_zero (by decide) hclose)
  have hL : insert_next_link (a ++ nextTagKey ++ b) targetPath
      = a ++ nextLinkOf targetPath ++ b := by
    unfold insert_next_link
    rw [hs1]
    exact replaceAll_unique (by decide) hkey
  have hoccC : occursAt nextAnchorClose (a ++ nextLinkOf targetPath ++ b)
      (a.length + 21 + targetPath.length) := by
    have harr : a ++ nextLinkOf targetPath ++ b
        = (a ++ (nextTagKey ++ nextAnchorOpen)
            ++ ('.' :: '.' :: '/' :: targetPath)) ++ nextAnchorClose ++ b := by
      simp [nextLinkOf]
    have hlen : (a ++ (nextTagKey ++ nextAnchorOpen)
        ++ ('.' :: '.' :: '/' :: targetPath)).length
        = a.length + 21 + targetPath.length := by
      simp only [List.length_append, List.length_cons]
      have h18 : (nextTagKey ++ nextAnchorOpen).length = 18 := by decide
      simp only [List.length_append] at h18
      omega
    rw [harr]
    have := occursAt_append_self
      (a ++ (nextTagKey ++ nextAnchorOpen) ++ ('.' :: '.' :: '/' :: targetPath))
      nextAnchorClose b
    rwa [hlen] at this
  have hcount1 : countSub nextAnchorClose (a ++ nextLinkOf targetPath ++ b) = 1 :=
    countSub_eq_one_of_unique (by decide) hoccC (closeOcc_unique hclose hq)
  have hkuniq := keyOcc_unique hkey hlt
  have hmat : matchPat (nextTagKey ++ nextAnchorOpen) nextAnchorClose
      (nextLinkOf targetPath ++ b) = some (nextLinkOf targetPath) := by
    have harr2 : nextLinkOf targetPath ++ b
        = (nextTagKey ++ nextAnchorOpen) ++ ('.' :: '.' :: '/' :: targetPath)
            ++ nextAnchorClose ++ b := by
      simp [nextLinkOf]
    have hval : nextLinkOf targetPath
        = (nextTagKey ++ nextAnchorOpen) ++ ('.' :: '.' :: '/' :: targetPath)
            ++ nextAnchorClose := by
      simp [nextLinkOf]
    rw [harr2, hval]
    exact matchPat_exact _ b hurlnl hurlq
  have hs2 : searchPat (nextTagKey ++ nextAnchorOpen) nextAnchorClose
      (a ++ nextLinkOf targetPath ++ b) = some (nextLinkOf targetPath) := by
    have harr : a ++ nextLinkOf targetPath ++ b
        = a ++ (nextLinkOf targetPath ++ b) := by simp
    rw [harr]
    rw [searchPat_append_skip a (nextLinkOf targetPath ++ b) ?hnone]
    · exact searchPat_of_matchPat_some
        (by simp [nextLinkOf, nextTagKey]) hmat
    case hnone =>
      intro k hk
      apply matchPat_none_of_no_A
      intro hpre
      have hkeyocc : occursAt nextTagKey (a ++ (nextLinkOf targetPath ++ b)) k :=
        ( List.prefix_append nextTagKey nextAnchorOpen).trans hpre
      rw [← harr] at hkeyocc
      have := hkuniq k hkeyocc
      omega
  have hL2 : insert_next_link (a ++ nextLinkOf targetPath ++ b) targetPath
      = a ++ nextLinkOf targetPath ++ b := by
    unfold insert_next_link
    rw [hs2]
    exact replaceAll_self (by simp [nextLinkOf, nextTagKey]) _
  rw [hL]
  exact ⟨hcount1, hL2⟩

/-- Witness for C7 (amended) on a concrete article body holding the home
marker once and no Next anchor. -/
theorem c7_witness :
    (countSub nextTagKey (("<p>x</p> Home</a> tail").data) = 1 ∧
     countSub nextAnchorClose (("<p>x</p> Home</a> tail").data) = 0 ∧
     '"' ∉ ['b'] ∧ '<' ∉ ['b'] ∧ '\n' ∉ ['b']) ∧
    (countSub nextAnchorClose
        (insert_next_link (("<p>x</p> Home</a> tail").data) ['b']) = 1 ∧
     insert_next_link
        (insert_next_link (("<p>x</p> Home</a> tail").data) ['b']) ['b']
       = insert_next_link (("<p>x</p> Home</a> tail").data) ['b']) :=
  ⟨⟨by decide, by decide, by decide, by decide, by decide⟩,
   c7_next_link_idempotent _ _ (by decide) (by decide) (by decide) (by decide)
     (by decide)⟩

/-! ### URL building (claim C6) and configuration normalization (claim C9) -/

/-- The spec's "normalize path separators to forward slash". -/
def normalizeSeparators (p : List Char) : List Char :=
  replaceAll ['\\'] ['/'] p

/-- The spec's "strip one trailing slash from `rootUrl` if present". -/
def stripTrailingSlash (r : List Char) : List Char :=
  if r.getLast? = some '/' then r.dropLast else r

/-- The spec's "strip one leading slash from the relative path if
present". -/
def stripLeadingSlash (p : List Char) : List Char :=
  match p with
  | [] => []
  | c :: cs => if c = '/' then cs else c :: cs

/-- C6: the two specified examples hold, and in general (for a non-empty
root URL and non-empty normalized path — the empty cases raise
`IndexError` in the code, modelled by `none`) the result is exactly the
slash-stripped root joined to the separator-normalized, slash-stripped
path by a single slash. -/
theorem c6_build_article_url :
    build_article_url (("http://example.com/").data) (("/posts/1/").data)
      = some (("http://example.com/posts/1/").data) ∧
    build_article_url (("http://example.com").data) (("posts/1").data)
      = some (("http://example.com/posts/1").data) ∧
    (∀ rootUrl articlePath : List Char, rootUrl ≠ [] →
      normalizeSeparators articlePath ≠ [] →
      build_article_url rootUrl articlePath
        = some (stripTrailingSlash rootUrl ++ '/'
            :: stripLeadingSlash (normalizeSeparators articlePath))) := by
  refine ⟨by decide, by decide, ?_⟩
  intro r p hr hp
  unfold normalizeSeparators at hp ⊢
  cases hlast : r.getLast? with
  | none => exact absurd (List.getLast?_eq_none_iff.mp hlast) hr
  | some c =>
    cases hq2 : replaceAll ['\\'] ['/'] p with
    | nil => exact absurd hq2 hp
    | cons c0 cs =>
      by_cases hc : c = '/'
      · by_cases hc0 : c0 = '/'
        · simp [build_article_url, hlast, hq2, stripTrailingSlash,
            stripLeadingSlash, hc, hc0]
        · simp [build_article_url, hlast, hq2, stripTrailingSlash,
            stripLeadingSlash, hc, hc0]
      · by_cases hc0 : c0 = '/'
        · simp [build_article_url, hlast, hq2, stripTrailingSlash,
            stripLeadingSlash, hc, hc0]
        · simp [build_article_url, hlast, hq2, stripTrailingSlash,
            stripLeadingSlash, hc, hc0]

/-- Witness for C6 (general part) at concrete mixed-slash inputs. -/
theorem c6_witness :
    (("http://a.org").data ≠ [] ∧
      normalizeSeparators (("\\posts\\2\\").data) ≠ []) ∧
    build_article_url (("http://a.org").data) (("\\posts\\2\\").data)
      = some (stripTrailingSlash (("http://a.org").data) ++ '/'
          :: stripLeadingSlash (normalizeSeparators (("\\posts\\2\\").data))) :=
  ⟨⟨by decide, by decide⟩,
   (c6_build_article_url.2.2) _ _ (by decide) (by decide)⟩

/-- The root ends in a slash and in only one slash. -/
def endsWithOneSlash (s : List Char) : Prop :=
  s.getLast? = some '/' ∧ s.dropLast.getLast? ≠ some '/'

instance (s : List Char) : Decidable (endsWithOneSlash s) := by
  unfold endsWithOneSlash
  infer_instance

/-- C9 counterexample: a configured `root_url` that already ends in two
slashes is kept verbatim, so the loaded `root_url` does not end with
exactly one trailing slash. -/
theorem c9_counterexample :
    configNormalize (("http://x//").data) (("s.css").data)
      = some (("http://x//").data, ("http://x//s.css").data) ∧
    ¬ endsWithOneSlash (("http://x//").data) := by
  constructor
  · decide
  · decide

/-- C9 amended: for non-empty configured values (empty ones raise
`IndexError`), the normalized `root_url` ends with a trailing slash —
with exactly one whenever the configured value did not already end in
`'/'` — and `style_sheet` becomes the normalized root concatenated with
the original fragment minus one leading slash. -/
theorem c9_config_normalization (root_url style_sheet : List Char)
    (hr : root_url ≠ []) (hs : style_sheet ≠ []) :
    ∃ root, configNormalize root_url style_sheet
        = some (root, root ++ stripLeadingSlash style_sheet) ∧
      root = (if root_url.getLast? = some '/' then root_url
        else root_url ++ ['/']) ∧
      root.getLast? = some '/' ∧
      (root_url.getLast? ≠ some '/' → endsWithOneSlash root) := by
  cases hlast : root_url.getLast? with
  | none => exact absurd (List.getLast?_eq_none_iff.mp hlast) hr
  | some c =>
    cases hss : style_sheet with
    | nil => exact absurd hss hs
    | cons c0 cs =>
      by_cases hc : c = '/'
      · refine ⟨root_url, ?_, by simp [hlast, hc], by rw [hlast, hc], ?_⟩
        · subst hc
          by_cases hc0 : c0 = '/'
          · simp [configNormalize, hlast, stripLeadingSlash, hc0]
          · simp [configNormalize, hlast, stripLeadingSlash, hc0]
        · intro hcon
          exact absurd (by rw [hc]) hcon
      · have hchar : ¬ c = '/' := hc
        refine ⟨root_url ++ ['/'], ?_, by simp [hlast, hc], ?_, ?_⟩
        · by_cases hc0 : c0 = '/'
          · simp [configNormalize, hlast, stripLeadingSlash, hc0, hchar]
          · simp [configNormalize, hlast, stripLeadingSlash, hc0, hchar]
        · exact List.getLast?_concat root_url
        · intro _
          refine ⟨ List.getLast?_concat root_url, ?_⟩
          rw [List.dropLast_concat, hlast]
          simp [hc]

/-- Witness for C9 (amended) at a concrete configuration. -/
theorem c9_witness :
    (("http://b.org").data ≠ [] ∧ ("/style.css").data ≠ []) ∧
    (∃ root, configNormalize (("http://b.org").data) (("/style.css").data)
        = some (root, root ++ stripLeadingSlash (("/style.css").data)) ∧
      root = (if (("http://b.org").data).getLast? = some '/'
        then ("http://b.org").data else ("http://b.org").data ++ ['/']) ∧
      root.getLast? = some '/' ∧
      ((("http://b.org").data).getLast? ≠ some '/' → endsWithOneSlash root)) :=
  ⟨⟨by decide, by decide⟩,
   c9_config_normalization _ _ (by decide) (by decide)⟩
